import Mathlib

/-!
# Verification of the `lightonai/gists` random-projection scripts

Shallow embedding of the three source files:

* the STL10 notebook (`get_conv_features`, `generate_RM`, `compute_dot_split`,
  `get_rand_features_GPU`, `get_random_features`),
* the double-descent notebook (`Autoencoder.encode`, `rps_list`, the
  `RidgeClassifier` loop over column prefixes),
* the Julia OPU snippet (`julia-opu.jl`).

NumPy / CuPy / Torch 2-D arrays are modelled by `NArr`: a pair of shape
numbers together with a total entry function; only entries with in-bounds
indices are meaningful, and array equality is the bounded pointwise relation
`NArr.EqD`.  Floating-point values are modelled by `ℚ` (every identity claimed
below is exact, column by column, even in floating point, because both sides
evaluate the very same sums).  Library primitives (`np.random.randn`,
`np.sqrt`, the CNN forward pass, the OPU transform) are explicit functional
parameters; wall-clock timing values returned by the Python functions are not
modelled.
-/

/-- A 2-D numeric array (NumPy / CuPy / Torch tensor): shape plus entries.
Entries at out-of-bounds indices are irrelevant junk. -/
structure NArr where
  rows : ℕ
  cols : ℕ
  entry : ℕ → ℕ → ℚ

instance : Inhabited NArr := ⟨⟨0, 0, fun _ _ => 0⟩⟩

/-- `np.dot` for 2-D arrays: contraction over the columns of `x`
(meaningful when `x.cols = r.rows`, as NumPy requires). -/
def NArr.dot (x r : NArr) : NArr :=
  ⟨x.rows, r.cols, fun i k => ∑ j ∈ Finset.range x.cols, x.entry i j * r.entry j k⟩

/-- Bounded extensional equality of arrays: same shape and same entries at
every in-bounds index.  This is equality of the NumPy arrays the `NArr`
values model. -/
def NArr.EqD (a b : NArr) : Prop :=
  a.rows = b.rows ∧ a.cols = b.cols ∧
    ∀ i < a.rows, ∀ j < a.cols, a.entry i j = b.entry i j

instance (a b : NArr) : Decidable (a.EqD b) := by
  unfold NArr.EqD; infer_instance

/-- Elementwise squared magnitude `|.|**2` applied to a whole array. -/
def absSqMap (a : NArr) : NArr :=
  ⟨a.rows, a.cols, fun i j => |a.entry i j| ^ 2⟩

/-- Elementwise plain square applied to a whole array. -/
def sqMap (a : NArr) : NArr :=
  ⟨a.rows, a.cols, fun i j => (a.entry i j) ^ 2⟩

/-- Source `compute_dot_split(x, random_matrix)`:
`output = cp.asnumpy(cp.abs(cp.dot(x, rm))**2)`.  The CuPy/NumPy host–device
copies (`cp.asarray`, `cp.asnumpy`) are value-preserving and are embedded as
the identity. -/
def compute_dot_split (x random_matrix : NArr) : NArr :=
  let d := x.dot random_matrix
  ⟨d.rows, d.cols, fun i k => |d.entry i k| ^ 2⟩

/-- Entry lookup of `np.concatenate(blocks, axis=1)`: column `j` falls in the
first block whose column range contains it. -/
def entryAt : List NArr → ℕ → ℕ → ℚ
  | [], _, _ => 0
  | a :: rest, i, j => if j < a.cols then a.entry i j else entryAt rest i (j - a.cols)

/-- `np.concatenate(blocks, axis=1)`: row count of the (common-row) blocks,
columns summed, entries looked up blockwise. -/
def concat_cols (l : List NArr) : NArr :=
  ⟨l.headI.rows, (l.map NArr.cols).sum, fun i j => entryAt l i j⟩

/-- Source `get_rand_features_GPU(R, X)`: applies `compute_dot_split` to `X`
and each block of `R`, then concatenates the partial outputs along `axis=1`.
The returned `proj_time` float is not modelled. -/
def get_rand_features_GPU (R : List NArr) (X : NArr) : NArr :=
  concat_cols (R.map (fun matrix => compute_dot_split X matrix))

/-- One block of the random matrix built by the `generate_RM` loop body:
`R_tmp[:] = np.random.randn(n_features, n_components // n_ram)`, then
`R_tmp /= np.sqrt(n_components)` when `normalize` is set.  `draw r c` is the
standard-normal value the global NumPy RNG supplies for position `(r, c)` of
this block, and `sqrtF` is the library square root. -/
def RMblock (draw : ℕ → ℕ → ℚ) (sqrtF : ℕ → ℚ)
    (n_components n_features n_ram : ℕ) (normalize : Bool) : NArr :=
  ⟨n_features, n_components / n_ram, fun r c =>
    if r < n_features ∧ c < n_components / n_ram then
      (if normalize then draw r c / sqrtF n_components else draw r c)
    else 0⟩

/-- Source `generate_RM(n_components, n_features, n_ram=10, normalize=True)`:
the list of `n_ram` blocks, each of shape `(n_features, n_components // n_ram)`.
`randn i` is the stream of values the hidden global NumPy RNG supplies for the
`i`-th iteration of the loop — it is state of the process, not an argument of
the Python function.  The returned `generation_time` float is not modelled. -/
def generate_RM (randn : ℕ → ℕ → ℕ → ℚ) (sqrtF : ℕ → ℚ)
    (n_components n_features n_ram : ℕ) (normalize : Bool) :
    List NArr :=
  (List.range n_ram).map
    (fun i => RMblock (randn i) sqrtF n_components n_features n_ram normalize)

/-- C1 counterexample input: `X = [[2]]`. -/
def Xc1 : NArr := ⟨1, 1, fun _ _ => 2⟩

/-- C1 counterexample input: `R = [[1]]`. -/
def Rc1 : NArr := ⟨1, 1, fun _ _ => 1⟩

/-- C1 (counterexample): the GPU path does **not** equal the plain matrix
product `X.dot(R)`: at `X = [[2]]`, `R = [[1]]` it returns `[[4]]`, the
squared magnitude, while `X.dot(R) = [[2]]`. -/
theorem compute_dot_split_ne_plain_dot :
    ¬ NArr.EqD (compute_dot_split Xc1 Rc1) (Xc1.dot Rc1) := by
  intro h
  have h00 := h.2.2 0 (by simp [compute_dot_split, NArr.dot, Xc1]) 0
    (by simp [compute_dot_split, NArr.dot, Rc1])
  simp only [compute_dot_split, NArr.dot, Xc1, Rc1, Finset.sum_range_one] at h00
  norm_num at h00

/-- C1 (amended): the GPU backend computes, entrywise, the **squared
magnitude** of the dense matrix product — `compute_dot_split X R` agrees on
every in-bounds entry (and in shape) with `(X.dot R)` squared elementwise. -/
theorem compute_dot_split_eq_sq_dot (X R : NArr) :
    NArr.EqD (compute_dot_split X R) (sqMap (X.dot R)) := by
  refine ⟨rfl, rfl, fun i _ k _ => ?_⟩
  simp [compute_dot_split, sqMap, sq_abs]

/-- The column count of each `compute_dot_split` output is the column count of
its random-matrix block. -/
theorem cols_compute_dot_split (X A : NArr) : (compute_dot_split X A).cols = A.cols := rfl

/-- Mapping `compute_dot_split X` over a block list preserves the total column
count. -/
theorem sumCols_map_cds (X : NArr) (R : List NArr) :
    ((R.map (fun m => compute_dot_split X m)).map NArr.cols).sum = (R.map NArr.cols).sum := by
  induction R with
  | nil => rfl
  | cons A rest ih => simp only [List.map_cons, List.sum_cons, ih, cols_compute_dot_split]

/-- Key refinement step: looking up column `k` of the concatenated per-block
projections equals squaring the magnitude of the `k`-th column of the product
of `X` with the concatenated blocks. -/
theorem entryAt_map_cds (X : NArr) (R : List NArr) (i : ℕ) :
    ∀ k, k < (R.map NArr.cols).sum →
      entryAt (R.map (fun m => compute_dot_split X m)) i k
        = |∑ j ∈ Finset.range X.cols, X.entry i j * entryAt R j k| ^ 2 := by
  induction R with
  | nil => intro k hk; simp at hk
  | cons A rest ih =>
    intro k hk
    by_cases hc : k < A.cols
    · have hL : entryAt (compute_dot_split X A :: rest.map (fun m => compute_dot_split X m)) i k
          = |(X.dot A).entry i k| ^ 2 := by
        rw [entryAt, if_pos (by simpa [cols_compute_dot_split] using hc)]
        rfl
      have hR : ∀ j, entryAt (A :: rest) j k = A.entry j k := fun j => by
        rw [entryAt, if_pos hc]
      rw [List.map_cons, hL]
      simp only [hR, NArr.dot]
    · have hk' : k - A.cols < (rest.map NArr.cols).sum := by
        simp only [List.map_cons, List.sum_cons] at hk; omega
      have hL : entryAt (compute_dot_split X A :: rest.map (fun m => compute_dot_split X m)) i k
          = entryAt (rest.map (fun m => compute_dot_split X m)) i (k - A.cols) := by
        rw [entryAt, if_neg (by simpa [cols_compute_dot_split] using hc)]
        rfl
      have hR : ∀ j, entryAt (A :: rest) j k = entryAt rest j (k - A.cols) := fun j => by
        rw [entryAt, if_neg hc]
      rw [List.map_cons, hL, ih _ hk']
      simp only [hR]

/-- C5: the chunked GPU projection refines the unsplit one.  For any nonempty
block list `R`, concatenating `compute_dot_split(X, R_i)` column-wise over the
blocks (this is exactly `get_rand_features_GPU R X`) agrees, in shape and at
every in-bounds entry, with the elementwise squared magnitude of the product
of `X` with the column-wise concatenation of the blocks. -/
theorem split_projection_refines_unsplit (X : NArr) (R : List NArr) (hR : R ≠ []) :
    NArr.EqD (get_rand_features_GPU R X) (absSqMap (X.dot (concat_cols R))) := by
  obtain ⟨A, rest, rfl⟩ := List.exists_cons_of_ne_nil hR
  refine ⟨rfl, ?_, ?_⟩
  · exact sumCols_map_cds X (A :: rest)
  · intro i _ k hk
    have hcols : (get_rand_features_GPU (A :: rest) X).cols = ((A :: rest).map NArr.cols).sum :=
      sumCols_map_cds X (A :: rest)
    have hk' : k < ((A :: rest).map NArr.cols).sum := hcols ▸ hk
    exact entryAt_map_cds X (A :: rest) i k hk'

/-- C5 witness: a concrete two-block instance of the refinement theorem,
`X = [[2]]`, `R = [[[1]], [[3]]]`. -/
theorem split_projection_refines_unsplit_witness :
    ([(⟨1, 1, fun _ _ => 3⟩ : NArr), ⟨1, 1, fun _ _ => 5⟩] ≠ ([] : List NArr)) ∧
    NArr.EqD (get_rand_features_GPU [⟨1, 1, fun _ _ => 3⟩, ⟨1, 1, fun _ _ => 5⟩] Xc1)
      (absSqMap (Xc1.dot (concat_cols [⟨1, 1, fun _ _ => 3⟩, ⟨1, 1, fun _ _ => 5⟩]))) :=
  ⟨by simp, split_projection_refines_unsplit Xc1 _ (by simp)⟩

/-- Looking up position `i < n` in a list built by mapping `f` over
`List.range n` yields `f i`. -/
theorem getD_map_range {α : Type} (f : ℕ → α) (n i : ℕ) (d : α) (h : i < n) :
    ((List.range n).map f).getD i d = f i := by
  rw [List.getD_eq_getElem?_getD, List.getElem?_map, List.getElem?_range h]
  rfl

/-- C2 (counterexample): with `n_components = 1` (and the default
`n_ram = 10`), the projected matrix has `10 * (1 / 10) = 0` columns, not
`n_components = 1`: each of the ten blocks has `1 // 10 = 0` columns. -/
theorem gpu_features_shape_cx :
    (get_rand_features_GPU (generate_RM (fun _ _ _ => 0) (fun _ => 1) 1 1 10 true) Xc1).cols ≠ 1 := by
  decide

/-- C2 (amended): projecting `X` through the blocks of
`generate_RM n_components n_features` yields a matrix with `X.rows` rows and
`n_ram * (n_components / n_ram)` columns; this equals `n_components` exactly
when `n_ram` divides `n_components` (as in the notebook, where
`120000 = 10 * 12000`). -/
theorem gpu_features_shape (randn : ℕ → ℕ → ℕ → ℚ) (sqrtF : ℕ → ℚ)
    (n_components n_features n_ram : ℕ) (normalize : Bool) (X : NArr)
    (hram : 0 < n_ram) :
    (get_rand_features_GPU (generate_RM randn sqrtF n_components n_features n_ram normalize) X).rows
      = X.rows ∧
    (get_rand_features_GPU (generate_RM randn sqrtF n_components n_features n_ram normalize) X).cols
      = n_ram * (n_components / n_ram) ∧
    (n_ram ∣ n_components →
      (get_rand_features_GPU (generate_RM randn sqrtF n_components n_features n_ram normalize) X).cols
        = n_components) := by
  obtain ⟨m, rfl⟩ : ∃ m, n_ram = m + 1 := ⟨n_ram - 1, by omega⟩
  refine ⟨?_, ?_, ?_⟩
  · rw [generate_RM, List.range_succ_eq_map, List.map_cons]
    rfl
  · have h : (get_rand_features_GPU
        (generate_RM randn sqrtF n_components n_features (m + 1) normalize) X).cols
        = (((List.range (m + 1)).map
            (fun i => RMblock (randn i) sqrtF n_components n_features (m + 1) normalize)).map
              NArr.cols).sum :=
      sumCols_map_cds X _
    rw [h, List.map_map]
    have hconst : ((List.range (m + 1)).map
        (NArr.cols ∘ fun i => RMblock (randn i) sqrtF n_components n_features (m + 1) normalize))
        = List.replicate (m + 1) (n_components / (m + 1)) := by
      rw [List.eq_replicate_iff]
      refine ⟨by simp, fun b hb => ?_⟩
      obtain ⟨i, _, rfl⟩ := List.mem_map.mp hb
      rfl
    rw [hconst, List.sum_replicate, smul_eq_mul]
  · intro hdvd
    have h2 : (get_rand_features_GPU
        (generate_RM randn sqrtF n_components n_features (m + 1) normalize) X).cols
        = (m + 1) * (n_components / (m + 1)) := by
      have h : (get_rand_features_GPU
          (generate_RM randn sqrtF n_components n_features (m + 1) normalize) X).cols
          = (((List.range (m + 1)).map
              (fun i => RMblock (randn i) sqrtF n_components n_features (m + 1) normalize)).map
                NArr.cols).sum :=
        sumCols_map_cds X _
      rw [h, List.map_map]
      have hconst : ((List.range (m + 1)).map
          (NArr.cols ∘ fun i => RMblock (randn i) sqrtF n_components n_features (m + 1) normalize))
          = List.replicate (m + 1) (n_components / (m + 1)) := by
        rw [List.eq_replicate_iff]
        refine ⟨by simp, fun b hb => ?_⟩
        obtain ⟨i, _, rfl⟩ := List.mem_map.mp hb
        rfl
      rw [hconst, List.sum_replicate, smul_eq_mul]
    rw [h2, Nat.mul_div_cancel' hdvd]

/-- C2 witness: the amended shape theorem at `n_components = 20`,
`n_features = 1`, `n_ram = 10`, `X = [[2]]`. -/
theorem gpu_features_shape_witness :
    (0 < 10) ∧
    ((get_rand_features_GPU (generate_RM (fun _ _ _ => 0) (fun _ => 1) 20 1 10 true) Xc1).rows
        = Xc1.rows ∧
     (get_rand_features_GPU (generate_RM (fun _ _ _ => 0) (fun _ => 1) 20 1 10 true) Xc1).cols
        = 10 * (20 / 10) ∧
     (10 ∣ 20 →
      (get_rand_features_GPU (generate_RM (fun _ _ _ => 0) (fun _ => 1) 20 1 10 true) Xc1).cols
        = 20)) :=
  ⟨by decide, gpu_features_shape (fun _ _ _ => 0) (fun _ => 1) 20 1 10 true Xc1 (by decide)⟩

/-- C8: with `normalize = True`, every in-bounds entry of every block returned
by `generate_RM` is the corresponding standard-normal draw divided by
`sqrt(n_components)` — the divisor is a function of `n_components` alone (the
right-hand side mentions `n_features` nowhere); with `normalize = False` the
entry is the raw draw. -/
theorem generate_RM_normalization (randn : ℕ → ℕ → ℕ → ℚ) (sqrtF : ℕ → ℚ)
    (n_components n_features n_ram i r c : ℕ)
    (hi : i < n_ram) (hr : r < n_features) (hc : c < n_components / n_ram) :
    ((generate_RM randn sqrtF n_components n_features n_ram true).getD i default).entry r c
      = randn i r c / sqrtF n_components ∧
    ((generate_RM randn sqrtF n_components n_features n_ram false).getD i default).entry r c
      = randn i r c := by
  constructor <;>
  · rw [generate_RM, getD_map_range _ _ _ _ hi]
    simp [RMblock, hr, hc]

/-- C8 witness: the normalization theorem at block `0`, entry `(0, 0)`, with
`n_components = 20`, `n_features = 1`, `n_ram = 10`. -/
theorem generate_RM_normalization_witness :
    ((0 : ℕ) < 10 ∧ (0 : ℕ) < 1 ∧ (0 : ℕ) < 20 / 10) ∧
    (((generate_RM (fun i r c => (i + r + c : ℚ)) (fun n => (n : ℚ)) 20 1 10 true).getD 0
        default).entry 0 0 = (fun i r c => (i + r + c : ℚ)) 0 0 0 / (fun n => (n : ℚ)) 20 ∧
     ((generate_RM (fun i r c => (i + r + c : ℚ)) (fun n => (n : ℚ)) 20 1 10 false).getD 0
        default).entry 0 0 = (fun i r c => (i + r + c : ℚ)) 0 0 0) :=
  ⟨by decide,
   generate_RM_normalization (fun i r c => (i + r + c : ℚ)) (fun n => (n : ℚ)) 20 1 10 0 0 0
     (by decide) (by decide) (by decide)⟩

/-- C4 (counterexample): `generate_RM` called twice with identical arguments
(`n_components = 10`, `n_features = 2`, defaults for the rest) but a different
hidden global NumPy RNG state (one state supplying draw `1`, the other draw
`0`) returns different arrays: the `(0,0)` entries of the first blocks
differ. -/
theorem generate_RM_rng_dependent :
    ((generate_RM (fun _ _ _ => 1) (fun _ => 1) 10 2 10 true).getD 0 default).entry 0 0
      ≠ ((generate_RM (fun _ _ _ => 0) (fun _ => 1) 10 2 10 true).getD 0 default).entry 0 0 := by
  rw [generate_RM, getD_map_range _ _ _ _ (by norm_num : (0:ℕ) < 10),
    generate_RM, getD_map_range _ _ _ _ (by norm_num : (0:ℕ) < 10)]
  simp [RMblock]

/-- C4 (amended): every repository function is deterministic once the values
supplied by its library calls are counted among its inputs.  `generate_RM`
depends on the hidden global RNG only through the draws it actually consumes
(block index `< n_ram`, row `< n_features`, column `< n_components / n_ram`):
two calls whose consumed draws coincide return identical block lists.
`compute_dot_split` (and with it the whole GPU path) reads nothing beyond the
in-bounds entries of its two array arguments: on arrays equal as NumPy arrays
it returns equal outputs. -/
theorem repo_functions_deterministic (rA rB : ℕ → ℕ → ℕ → ℚ) (s : ℕ → ℚ)
    (nc nf nr : ℕ) (norm : Bool) (X X' R R' : NArr)
    (hdraw : ∀ i r c, i < nr → r < nf → c < nc / nr → rA i r c = rB i r c)
    (hX : X.EqD X') (hR : R.EqD R') (hcompat : X.cols ≤ R.rows) :
    ((generate_RM rA s nc nf nr norm).length = (generate_RM rB s nc nf nr norm).length ∧
     ∀ i, NArr.EqD ((generate_RM rA s nc nf nr norm).getD i default)
                   ((generate_RM rB s nc nf nr norm).getD i default)) ∧
    NArr.EqD (compute_dot_split X R) (compute_dot_split X' R') := by
  obtain ⟨hrows, hcols, hent⟩ := hX
  obtain ⟨hrrows, hrcols, hrent⟩ := hR
  refine ⟨⟨by simp [generate_RM], fun i => ?_⟩, ?_, ?_, ?_⟩
  · by_cases hi : i < nr
    · rw [generate_RM, getD_map_range _ _ _ _ hi, generate_RM, getD_map_range _ _ _ _ hi]
      refine ⟨rfl, rfl, fun r hr c hc => ?_⟩
      have hr' : r < nf := hr
      have hc' : c < nc / nr := hc
      show (RMblock (rA i) s nc nf nr norm).entry r c
          = (RMblock (rB i) s nc nf nr norm).entry r c
      simp [RMblock, hr', hc', hdraw i r c hi hr' hc']
    · have hlen : (generate_RM rA s nc nf nr norm).length ≤ i := by
        simp only [generate_RM, List.length_map, List.length_range]; omega
      have hlen' : (generate_RM rB s nc nf nr norm).length ≤ i := by
        simp only [generate_RM, List.length_map, List.length_range]; omega
      rw [List.getD_eq_default _ _ hlen, List.getD_eq_default _ _ hlen']
      exact ⟨rfl, rfl, fun _ _ _ _ => rfl⟩
  · exact hrows
  · exact hrcols
  · intro i hi k hk
    have hi' : i < X.rows := hi
    have hk' : k < R.cols := hk
    show |∑ j ∈ Finset.range X.cols, X.entry i j * R.entry j k| ^ 2
        = |∑ j ∈ Finset.range X'.cols, X'.entry i j * R'.entry j k| ^ 2
    rw [← hcols]
    refine congrArg (fun q => |q| ^ 2) (Finset.sum_congr rfl fun j hj => ?_)
    have hj' := Finset.mem_range.mp hj
    rw [hent i hi' j hj', hrent j (lt_of_lt_of_le hj' hcompat) k hk']

/-- C4 witness: the determinism theorem at concrete streams agreeing on all
consumed draws and concrete equal arrays. -/
theorem repo_functions_deterministic_witness :
    ((∀ i r c : ℕ, i < 10 → r < 1 → c < 20 / 10 → (i + r + c : ℚ) = (i + r + c : ℚ)) ∧
      NArr.EqD Xc1 Xc1 ∧ NArr.EqD Rc1 Rc1 ∧ Xc1.cols ≤ Rc1.rows) ∧
    (((generate_RM (fun i r c => (i + r + c : ℚ)) (fun _ => 1) 20 1 10 true).length
        = (generate_RM (fun i r c => (i + r + c : ℚ)) (fun _ => 1) 20 1 10 true).length ∧
      ∀ i, NArr.EqD
        ((generate_RM (fun i r c => (i + r + c : ℚ)) (fun _ => 1) 20 1 10 true).getD i default)
        ((generate_RM (fun i r c => (i + r + c : ℚ)) (fun _ => 1) 20 1 10 true).getD i default)) ∧
     NArr.EqD (compute_dot_split Xc1 Rc1) (compute_dot_split Xc1 Rc1)) :=
  ⟨⟨fun _ _ _ _ _ _ => rfl, ⟨rfl, rfl, fun _ _ _ _ => rfl⟩, ⟨rfl, rfl, fun _ _ _ _ => rfl⟩,
     by decide⟩,
   repo_functions_deterministic (fun i r c => (i + r + c : ℚ)) (fun i r c => (i + r + c : ℚ))
     (fun _ => 1) 20 1 10 true Xc1 Xc1 Rc1 Rc1 (fun _ _ _ _ _ _ => rfl)
     ⟨rfl, rfl, fun _ _ _ _ => rfl⟩ ⟨rfl, rfl, fun _ _ _ _ => rfl⟩ (by decide)⟩

/-- One batch yielded by a torch `DataLoader`: a list of images and the list
of their integer targets. -/
structure BatchT (Img : Type) where
  images : List Img
  targets : List ℕ

/-- The slice assignment `tensor[row0 : row0 + len] = out`: rows in the
written range now read from `out` (shifted), other rows keep `acc`. -/
def writeRows (acc : ℕ → ℕ → ℚ) (row0 len : ℕ) (out : ℕ → ℕ → ℚ) : ℕ → ℕ → ℚ :=
  fun r c => if row0 ≤ r ∧ r < row0 + len then out (r - row0) c else acc r c

/-- The `for i, (images, targets) in enumerate(loader)` loop of
`get_conv_features`, acting on the feature tensor: batch `i` writes the rows
`i * batch_size : (i + 1) * batch_size`.  `model imgs k c` is feature `c` of
the `k`-th image in the forward pass of the batch `imgs` (the CNN forward is a
library call and is a parameter). -/
def writeBatches {Img : Type} (model : List Img → ℕ → ℕ → ℚ) (bs : ℕ) :
    List (BatchT Img) → ℕ → (ℕ → ℕ → ℚ) → (ℕ → ℕ → ℚ)
  | [], _, acc => acc
  | b :: rest, i, acc =>
      writeBatches model bs rest (i + 1)
        (writeRows acc (i * bs) b.images.length (model b.images))

/-- The same loop acting on the `labels` array. -/
def writeLabels {Img : Type} (bs : ℕ) :
    List (BatchT Img) → ℕ → (ℕ → ℕ) → (ℕ → ℕ)
  | [], _, acc => acc
  | b :: rest, i, acc =>
      writeLabels bs rest (i + 1)
        (fun r => if i * bs ≤ r ∧ r < i * bs + b.images.length
                  then b.targets.getD (r - i * bs) 0 else acc r)

/-- A 2-D boolean array (the thresholded `conv_features > 0` tensor). -/
structure BoolArr where
  rows : ℕ
  cols : ℕ
  entry : ℕ → ℕ → Bool

/-- Source `get_conv_features(loader, model, out_shape)`: allocates a
`(n_images, out_shape)` tensor (fresh memory, embedded as zeros), fills it
batch by batch with the forward passes, then boolean-encodes it with
`conv_features = (conv_features > 0)`.  The loader is its list of batches;
`n_images = len(loader.dataset)` is the total number of images.  The two
timing floats are not modelled. -/
def get_conv_features {Img : Type} (loader : List (BatchT Img)) (bs : ℕ)
    (model : List Img → ℕ → ℕ → ℚ) (out_shape : ℕ) : BoolArr × (ℕ → ℕ) :=
  let n_images := (loader.map (fun b => b.images.length)).sum
  let conv := writeBatches model bs loader 0 (fun _ _ => 0)
  (⟨n_images, out_shape, fun r c => decide (conv r c > 0)⟩,
   writeLabels bs loader 0 (fun _ => 0))

/-- Well-formedness of a `DataLoader` batch list with `drop_last=False`:
every batch except the last is full (`batch_size` images) and the last has at
most `batch_size`. -/
def loaderOK {Img : Type} (bs : ℕ) : List (BatchT Img) → Prop
  | [] => True
  | [b] => b.images.length ≤ bs
  | b :: rest => b.images.length = bs ∧ loaderOK bs rest

/-- The loader's underlying dataset: its batches flattened in order. -/
def datasetOf {Img : Type} : List (BatchT Img) → List Img
  | [] => []
  | b :: rest => b.images ++ datasetOf rest

/-- The dataset size is the sum of the batch sizes. -/
theorem length_datasetOf {Img : Type} (l : List (BatchT Img)) :
    (datasetOf l).length = (l.map (fun b => b.images.length)).sum := by
  induction l with
  | nil => rfl
  | cons b rest ih => simp [datasetOf, ih]

/-- The raw convolutional feature the loop stores for flattened sample `s`:
feature `c` of the forward pass of the batch containing `s`, at the sample's
offset in its batch. -/
def flatFeature {Img : Type} (model : List Img → ℕ → ℕ → ℚ) :
    List (BatchT Img) → ℕ → ℕ → ℚ
  | [], _, _ => 0
  | b :: rest, s, c =>
      if s < b.images.length then model b.images s c
      else flatFeature model rest (s - b.images.length) c

/-- Rows below the next write position are never touched by the remaining
batches. -/
theorem writeBatches_lt {Img : Type} (model : List Img → ℕ → ℕ → ℚ) (bs : ℕ)
    (l : List (BatchT Img)) :
    ∀ (i : ℕ) (acc : ℕ → ℕ → ℚ) (r c : ℕ), r < i * bs →
      writeBatches model bs l i acc r c = acc r c := by
  induction l with
  | nil => intro i acc r c _; rfl
  | cons b rest ih =>
    intro i acc r c hr
    have hr' : r < (i + 1) * bs := lt_of_lt_of_le hr (Nat.mul_le_mul_right bs (Nat.le_succ i))
    rw [writeBatches, ih (i + 1) _ r c hr']
    have hcond : ¬(i * bs ≤ r ∧ r < i * bs + b.images.length) :=
      fun h => Nat.not_le.mpr hr h.1
    rw [writeRows, if_neg hcond]

/-- The value the loop leaves at row `i * bs + s`: the raw feature of the
`s`-th remaining sample, provided every non-final batch is full. -/
theorem writeBatches_entry {Img : Type} (model : List Img → ℕ → ℕ → ℚ) (bs : ℕ)
    (l : List (BatchT Img)) :
    ∀ (i : ℕ) (acc : ℕ → ℕ → ℚ) (s c : ℕ), loaderOK bs l →
      s < (l.map (fun b => b.images.length)).sum →
      writeBatches model bs l i acc (i * bs + s) c = flatFeature model l s c := by
  induction l with
  | nil => intro i acc s c _ hs; simp at hs
  | cons b rest ih =>
    intro i acc s c hOK hs
    by_cases hsb : s < b.images.length
    · have hlen : b.images.length ≤ bs := by
        cases rest with
        | nil => exact hOK
        | cons b2 r2 => exact le_of_eq hOK.1
      have hlt : i * bs + s < (i + 1) * bs := by
        rw [Nat.succ_mul]
        exact Nat.add_lt_add_left (lt_of_lt_of_le hsb hlen) (i * bs)
      rw [writeBatches, writeBatches_lt model bs rest (i + 1) _ (i * bs + s) c hlt]
      have hcond : i * bs ≤ i * bs + s ∧ i * bs + s < i * bs + b.images.length :=
        ⟨Nat.le_add_right _ _, Nat.add_lt_add_left hsb (i * bs)⟩
      rw [writeRows, if_pos hcond, Nat.add_sub_cancel_left]
      rw [flatFeature, if_pos hsb]
    · cases rest with
      | nil =>
        exfalso
        simp only [List.map_cons, List.map_nil, List.sum_cons, List.sum_nil] at hs
        omega
      | cons b2 r2 =>
        have hfull : b.images.length = bs := hOK.1
        have hOKr : loaderOK bs (b2 :: r2) := hOK.2
        have hbs : bs ≤ s := hfull ▸ Nat.le_of_not_lt hsb
        have hs' : s - bs < ((b2 :: r2).map (fun b => b.images.length)).sum := by
          simp only [List.map_cons, List.sum_cons, hfull] at hs ⊢
          omega
        have hrow : i * bs + s = (i + 1) * bs + (s - bs) := by
          rw [Nat.succ_mul, Nat.add_assoc, Nat.add_sub_cancel' hbs]
        have hflat : flatFeature model (b :: b2 :: r2) s c
            = flatFeature model (b2 :: r2) (s - bs) c := by
          rw [flatFeature, if_neg hsb, hfull]
        rw [writeBatches, hrow, ih (i + 1) _ (s - bs) c hOKr hs', hflat]

/-- `flatFeature` is the per-sample feature of the flattened dataset, when the
batch forward pass acts per sample. -/
theorem flatFeature_eq {Img : Type} [Inhabited Img] (model : List Img → ℕ → ℕ → ℚ)
    (feat : Img → ℕ → ℚ)
    (hmodel : ∀ imgs k c, k < imgs.length → model imgs k c = feat (imgs.getD k default) c)
    (l : List (BatchT Img)) :
    ∀ s c, s < (datasetOf l).length →
      flatFeature model l s c = feat ((datasetOf l).getD s default) c := by
  induction l with
  | nil => intro s c hs; simp [datasetOf] at hs
  | cons b rest ih =>
    intro s c hs
    have hsplit : datasetOf (b :: rest) = b.images ++ datasetOf rest := rfl
    by_cases hsb : s < b.images.length
    · rw [flatFeature, if_pos hsb, hmodel b.images s c hsb]
      congr 1
      rw [hsplit, List.getD_append _ _ _ _ hsb]
    · have hs' : s - b.images.length < (datasetOf rest).length := by
        rw [hsplit, List.length_append] at hs
        omega
      rw [flatFeature, if_neg hsb, ih (s - b.images.length) c hs']
      congr 1
      rw [hsplit, List.getD_append_right _ _ _ _ (Nat.le_of_not_lt hsb)]

/-- C3: the matrix returned by `get_conv_features` is boolean-encoded — entry
`(s, c)` is the Boolean `f_sc > 0`, where `f_sc` is raw convolutional feature
`c` of flattened sample `s` — with one row per sample of the loader's dataset
and `out_shape` columns.  The hypotheses say the loader's batches are the
`drop_last=False` batching of the dataset (all full except the last) and that
the CNN forward pass computes each sample's features independently of its
batchmates. -/
theorem get_conv_features_boolean {Img : Type} [Inhabited Img]
    (loader : List (BatchT Img)) (bs : ℕ) (model : List Img → ℕ → ℕ → ℚ)
    (feat : Img → ℕ → ℚ) (out_shape : ℕ)
    (hOK : loaderOK bs loader)
    (hmodel : ∀ imgs k c, k < imgs.length → model imgs k c = feat (imgs.getD k default) c) :
    (get_conv_features loader bs model out_shape).1.rows = (datasetOf loader).length ∧
    (get_conv_features loader bs model out_shape).1.cols = out_shape ∧
    ∀ s < (datasetOf loader).length, ∀ c,
      (get_conv_features loader bs model out_shape).1.entry s c
        = decide (feat ((datasetOf loader).getD s default) c > 0) := by
  refine ⟨(length_datasetOf loader).symm, rfl, ?_⟩
  intro s hs c
  show decide (writeBatches model bs loader 0 (fun _ _ => 0) s c > 0)
      = decide (feat ((datasetOf loader).getD s default) c > 0)
  have hsum : s < (loader.map (fun b => b.images.length)).sum :=
    length_datasetOf loader ▸ hs
  have h0 : writeBatches model bs loader 0 (fun _ _ => 0) s c
      = flatFeature model loader s c := by
    have := writeBatches_entry model bs loader 0 (fun _ _ => 0) s c hOK hsum
    simpa using this
  rw [h0, flatFeature_eq model feat hmodel loader s c hs]

/-- C3 witness: a loader of two batches (`[10, 20]` and `[30]`, batch size 2)
with batch forward `model imgs k c = imgs[k] - c` and per-sample features
`feat n c = n - c`. -/
theorem get_conv_features_boolean_witness :
    (loaderOK 2 [(⟨[10, 20], [0, 0]⟩ : BatchT ℕ), ⟨[30], [1]⟩] ∧
     ∀ (imgs : List ℕ) (k c : ℕ), k < imgs.length →
       ((imgs.getD k default : ℕ) : ℚ) - c = ((imgs.getD k default : ℕ) : ℚ) - c) ∧
    ((get_conv_features [(⟨[10, 20], [0, 0]⟩ : BatchT ℕ), ⟨[30], [1]⟩] 2
        (fun imgs k c => ((imgs.getD k default : ℕ) : ℚ) - c) 3).1.rows
      = (datasetOf [(⟨[10, 20], [0, 0]⟩ : BatchT ℕ), ⟨[30], [1]⟩]).length ∧
     (get_conv_features [(⟨[10, 20], [0, 0]⟩ : BatchT ℕ), ⟨[30], [1]⟩] 2
        (fun imgs k c => ((imgs.getD k default : ℕ) : ℚ) - c) 3).1.cols = 3 ∧
     ∀ s < (datasetOf [(⟨[10, 20], [0, 0]⟩ : BatchT ℕ), ⟨[30], [1]⟩]).length, ∀ c,
       (get_conv_features [(⟨[10, 20], [0, 0]⟩ : BatchT ℕ), ⟨[30], [1]⟩] 2
          (fun imgs k c => ((imgs.getD k default : ℕ) : ℚ) - c) 3).1.entry s c
         = decide ((fun (n : ℕ) (c : ℕ) => ((n : ℕ) : ℚ) - c)
             ((datasetOf [(⟨[10, 20], [0, 0]⟩ : BatchT ℕ), ⟨[30], [1]⟩]).getD s default) c > 0)) :=
  ⟨⟨⟨rfl, by show [(30 : ℕ)].length ≤ 2; decide⟩, fun _ _ _ _ => rfl⟩,
   get_conv_features_boolean [(⟨[10, 20], [0, 0]⟩ : BatchT ℕ), ⟨[30], [1]⟩] 2
     (fun imgs k c => ((imgs.getD k default : ℕ) : ℚ) - c)
     (fun (n : ℕ) (c : ℕ) => ((n : ℕ) : ℚ) - c) 3
     ⟨rfl, by show [(30 : ℕ)].length ≤ 2; decide⟩ (fun _ _ _ _ => rfl)⟩

/-- Source `get_random_features(X, n_components)`: constructs
`OPUMap(n_components)` and applies the opaque hardware transform (a library
parameter here); the final `.type(torch.FloatTensor)` cast is value-preserving
and embedded as the identity.  Timing floats are not modelled. -/
def get_random_features (transform : ℕ → NArr → NArr) (X : NArr)
    (n_components : ℕ) : NArr :=
  transform n_components X

/-- `generate_RM` with the library RNG call made fallible: iteration `i`
either obtains its block of draws or raises. -/
def generate_RM_E {ε : Type} (randnE : ℕ → Except ε (ℕ → ℕ → ℚ)) (sqrtF : ℕ → ℚ)
    (n_components n_features n_ram : ℕ) (normalize : Bool) : Except ε (List NArr) :=
  (List.range n_ram).mapM
    (fun i => do
      let d ← randnE i
      pure (RMblock d sqrtF n_components n_features n_ram normalize))

/-- `get_rand_features_GPU` with the per-block CuPy pipeline (device copy,
`cp.dot`, `cp.abs(..)**2`) made fallible (e.g. device-memory exhaustion). -/
def get_rand_features_GPU_E {ε : Type} (blockE : NArr → NArr → Except ε NArr)
    (R : List NArr) (X : NArr) : Except ε NArr := do
  let parts ← R.mapM (fun matrix => blockE X matrix)
  pure (concat_cols parts)

/-- The `get_conv_features` loop with the CNN forward pass made fallible. -/
def writeBatchesE {Img ε : Type} (modelE : List Img → Except ε (ℕ → ℕ → ℚ)) (bs : ℕ) :
    List (BatchT Img) → ℕ → (ℕ → ℕ → ℚ) → Except ε (ℕ → ℕ → ℚ)
  | [], _, acc => Except.ok acc
  | b :: rest, i, acc => do
      let out ← modelE b.images
      writeBatchesE modelE bs rest (i + 1) (writeRows acc (i * bs) b.images.length out)

/-- `get_conv_features` with the CNN forward pass made fallible. -/
def get_conv_features_E {Img ε : Type} (loader : List (BatchT Img)) (bs : ℕ)
    (modelE : List Img → Except ε (ℕ → ℕ → ℚ)) (out_shape : ℕ) : Except ε BoolArr := do
  let conv ← writeBatchesE modelE bs loader 0 (fun _ _ => 0)
  pure ⟨(loader.map (fun b => b.images.length)).sum, out_shape,
    fun r c => decide (conv r c > 0)⟩

/-- `get_random_features` with the OPU hardware transform made fallible
(e.g. hardware session unavailability). -/
def get_random_features_E {ε : Type} (transformE : ℕ → NArr → Except ε NArr)
    (X : NArr) (n_components : ℕ) : Except ε NArr := do
  let rf ← transformE n_components X
  pure rf

/-- `mapM` over `Except` propagates the first error unchanged: if everything
before `a` succeeds and `f a` raises `e`, the whole traversal returns `e`. -/
theorem mapM_error_of_first {α β ε : Type} (f : α → Except ε β) (l₁ : List α) (a : α)
    (l₂ : List α) (e : ε) (h₁ : ∀ x ∈ l₁, ∃ y, f x = Except.ok y)
    (ha : f a = Except.error e) :
    (l₁ ++ a :: l₂).mapM f = Except.error e := by
  induction l₁ with
  | nil =>
    rw [List.nil_append, List.mapM_cons, ha]
    rfl
  | cons x xs ih =>
    obtain ⟨y, hy⟩ := h₁ x (List.mem_cons_self x xs)
    rw [List.cons_append, List.mapM_cons, hy]
    show ((xs ++ a :: l₂).mapM f).bind _ = Except.error e
    rw [ih (fun z hz => h₁ z (List.mem_cons_of_mem x hz))]
    rfl

/-- `List.range n` split at an interior point `k`. -/
theorem range_split (k m : ℕ) :
    List.range (k + 1 + m) = List.range k ++ k :: (List.range m).map (fun j => k + 1 + j) := by
  rw [List.range_add, List.range_succ, List.append_assoc]
  rfl

/-- The batch loop propagates the first forward-pass error unchanged. -/
theorem writeBatchesE_error {Img ε : Type} (modelE : List Img → Except ε (ℕ → ℕ → ℚ))
    (bs : ℕ) (l₁ : List (BatchT Img)) (b : BatchT Img) (l₂ : List (BatchT Img)) (e : ε)
    (h₁ : ∀ b' ∈ l₁, ∃ out, modelE b'.images = Except.ok out)
    (hb : modelE b.images = Except.error e) :
    ∀ (i : ℕ) (acc : ℕ → ℕ → ℚ),
      writeBatchesE modelE bs (l₁ ++ b :: l₂) i acc = Except.error e := by
  induction l₁ with
  | nil =>
    intro i acc
    rw [List.nil_append, writeBatchesE, hb]
    rfl
  | cons x xs ih =>
    intro i acc
    obtain ⟨out, hout⟩ := h₁ x (List.mem_cons_self x xs)
    rw [List.cons_append, writeBatchesE, hout]
    exact ih (fun z hz => h₁ z (List.mem_cons_of_mem x hz)) (i + 1) _

/-- C6: exceptions raised inside library calls propagate unchanged through
every repository function — none catches, classifies, transforms or retries.
If the RNG call of iteration `k` of `generate_RM` raises `e` (earlier
iterations succeeding), `generate_RM` returns exactly `e`; likewise for the
first failing CuPy block computation in `get_rand_features_GPU`, the first
failing forward pass in `get_conv_features`, and a failing OPU transform in
`get_random_features`. -/
theorem exceptions_propagate {Img ε : Type}
    (randnE : ℕ → Except ε (ℕ → ℕ → ℚ)) (sqrtF : ℕ → ℚ)
    (nc nf nr k : ℕ) (norm : Bool) (e : ε)
    (blockE : NArr → NArr → Except ε NArr) (R₁ R₂ : List NArr) (A X : NArr)
    (modelE : List Img → Except ε (ℕ → ℕ → ℚ)) (l₁ l₂ : List (BatchT Img))
    (b : BatchT Img) (bs out_shape : ℕ)
    (transformE : ℕ → NArr → Except ε NArr) (Y : NArr) (m : ℕ)
    (hk : k < nr)
    (hrandn : ∀ i < k, ∃ d, randnE i = Except.ok d)
    (hke : randnE k = Except.error e)
    (hblocks : ∀ B ∈ R₁, ∃ P, blockE X B = Except.ok P)
    (hAe : blockE X A = Except.error e)
    (hbatches : ∀ b' ∈ l₁, ∃ out, modelE b'.images = Except.ok out)
    (hbe : modelE b.images = Except.error e)
    (hte : transformE m Y = Except.error e) :
    generate_RM_E randnE sqrtF nc nf nr norm = Except.error e ∧
    get_rand_features_GPU_E blockE (R₁ ++ A :: R₂) X = Except.error e ∧
    get_conv_features_E (l₁ ++ b :: l₂) bs modelE out_shape = Except.error e ∧
    get_random_features_E transformE Y m = Except.error e := by
  refine ⟨?_, ?_, ?_, ?_⟩
  · obtain ⟨mm, rfl⟩ : ∃ mm, nr = k + 1 + mm := ⟨nr - k - 1, by omega⟩
    rw [generate_RM_E, range_split k mm]
    have h1 : ∀ x ∈ List.range k, ∃ y,
        (do
          let d ← randnE x
          pure (RMblock d sqrtF nc nf (k + 1 + mm) norm) : Except ε NArr) = Except.ok y := by
      intro x hx
      obtain ⟨d, hd⟩ := hrandn x (List.mem_range.mp hx)
      exact ⟨RMblock d sqrtF nc nf (k + 1 + mm) norm, by rw [hd]; rfl⟩
    have h2 : (do
        let d ← randnE k
        pure (RMblock d sqrtF nc nf (k + 1 + mm) norm) : Except ε NArr) = Except.error e := by
      rw [hke]; rfl
    exact mapM_error_of_first _ _ _ _ _ h1 h2
  · rw [get_rand_features_GPU_E]
    show ((R₁ ++ A :: R₂).mapM (fun matrix => blockE X matrix)).bind _ = Except.error e
    rw [mapM_error_of_first _ _ _ _ _ hblocks hAe]
    rfl
  · rw [get_conv_features_E]
    show (writeBatchesE modelE bs (l₁ ++ b :: l₂) 0 (fun _ _ => 0)).bind _ = Except.error e
    rw [writeBatchesE_error modelE bs l₁ b l₂ e hbatches hbe 0 _]
    rfl
  · rw [get_random_features_E, hte]
    rfl

/-- C6 witness: every library call fails immediately with exception `7`
(`k = 0`, empty success prefixes). -/
theorem exceptions_propagate_witness :
    ((0 : ℕ) < 1 ∧
     (∀ i < (0 : ℕ), ∃ d : ℕ → ℕ → ℚ, (Except.error 7 : Except ℕ (ℕ → ℕ → ℚ)) = Except.ok d) ∧
     ((Except.error 7 : Except ℕ (ℕ → ℕ → ℚ)) = Except.error 7) ∧
     (∀ B ∈ ([] : List NArr), ∃ P : NArr, (Except.error 7 : Except ℕ NArr) = Except.ok P) ∧
     (∀ b' ∈ ([] : List (BatchT ℕ)), ∃ out : ℕ → ℕ → ℚ,
        (Except.error 7 : Except ℕ (ℕ → ℕ → ℚ)) = Except.ok out)) ∧
    (generate_RM_E (fun _ => Except.error 7) (fun _ => 1) 10 2 1 true = Except.error 7 ∧
     get_rand_features_GPU_E (fun _ _ => Except.error 7) ([] ++ Rc1 :: []) Xc1
       = Except.error 7 ∧
     get_conv_features_E (([] : List (BatchT ℕ)) ++ (⟨[1], [0]⟩ : BatchT ℕ) :: []) 2
       (fun _ => Except.error 7) 3 = Except.error 7 ∧
     get_random_features_E (fun _ _ => Except.error 7) Xc1 5 = Except.error 7) :=
  ⟨⟨by decide, fun i hi => absurd hi (Nat.not_lt_zero i), rfl, fun B hB => absurd hB (by simp),
     fun b' hb' => absurd hb' (by simp)⟩,
   exceptions_propagate (fun _ => Except.error 7) (fun _ => 1) 10 2 1 0 true 7
     (fun _ _ => Except.error 7) [] [] Rc1 Xc1 (fun _ => Except.error 7) [] []
     (⟨[1], [0]⟩ : BatchT ℕ) 2 3 (fun _ _ => Except.error 7) Xc1 5
     (by decide) (fun i hi => absurd hi (Nat.not_lt_zero i)) rfl
     (fun B hB => absurd hB (by simp)) rfl
     (fun b' hb' => absurd hb' (by simp)) rfl rfl⟩

/-- All in-bounds entries of an array, row-major. -/
def NArr.entriesList (a : NArr) : List ℚ :=
  (List.range a.rows).flatMap (fun i => (List.range a.cols).map (fun j => a.entry i j))

/-- Julia `minimum` over an array's entries. -/
def NArr.minEntry (a : NArr) : ℚ := a.entriesList.foldr min (a.entry 0 0)

/-- Julia `maximum` over an array's entries. -/
def NArr.maxEntry (a : NArr) : ℚ := a.entriesList.foldr max (a.entry 0 0)

/-- `ndims` of the (always 2-D) arrays `NArr` models. -/
def NArr.ndims (_ : NArr) : ℕ := 2

/-- One line printed by the Julia script. -/
inductive JLine
  | typeofLine
  | ndimsLine (n : ℕ)
  | minmaxLine (lo hi : ℚ)
deriving DecidableEq

/-- The input built by `julia-opu.jl`:
`x = np.random.randint(0, 2, size=(3000, 912*1140), dtype=np.uint8)`.
`randint i j ∈ {0, 1}` is the library's draw for position `(i, j)`. -/
def julia_x (randint : ℕ → ℕ → Fin 2) : NArr :=
  ⟨3000, 912 * 1140, fun i j => ((randint i j : ℕ) : ℚ)⟩

/-- Source `julia-opu.jl`: builds `x`, initializes `OPU(n_components=10000)`,
computes `y = opu.transform1d(x)` (the subsequent `@pycall` line re-runs the
identical call and overwrites `y` with the same value), then prints
`typeof(y)`, `ndims(y)`, and `minimum(y), maximum(y)`, in that order. -/
def julia_script (randint : ℕ → ℕ → Fin 2) (transform1d : ℕ → NArr → NArr) : List JLine :=
  let x := julia_x randint
  let y := transform1d 10000 x
  [JLine.typeofLine, JLine.ndimsLine y.ndims, JLine.minmaxLine y.minEntry y.maxEntry]

/-- C7: the Julia script calls the vendor `transform1d` (via Python interop)
on a 2-D uint8 input of shape `(3000, 912*1140)` — every entry is 0 or 1 —
and prints the result's type, its number of dimensions, and its minimum and
maximum values, in that order. -/
theorem julia_script_trace (randint : ℕ → ℕ → Fin 2) (transform1d : ℕ → NArr → NArr) :
    (julia_x randint).rows = 3000 ∧
    (julia_x randint).cols = 912 * 1140 ∧
    (∀ i j, (julia_x randint).entry i j = 0 ∨ (julia_x randint).entry i j = 1) ∧
    julia_script randint transform1d
      = [JLine.typeofLine, JLine.ndimsLine 2,
         JLine.minmaxLine (transform1d 10000 (julia_x randint)).minEntry
           (transform1d 10000 (julia_x randint)).maxEntry] := by
  refine ⟨rfl, rfl, ?_, rfl⟩
  intro i j
  have h2 := (randint i j).isLt
  have : (randint i j : ℕ) = 0 ∨ (randint i j : ℕ) = 1 := by omega
  rcases this with h | h <;> [left; right] <;> simp [julia_x, h]

/-- `torch.sign` on a single value. -/
def torchSign (q : ℚ) : ℚ := if 0 < q then 1 else if q < 0 then -1 else 0

/-- The autoencoder of the double-descent notebook.  The encoder and decoder
layers are library modules (abstract parameters — `encoder ae x i j` is entry
`(i, j)` of the `Conv2d` pre-activation on input `x`); `beta` scales the
`forward` pass and is irrelevant to `encode`. -/
structure Autoencoder (α : Type) where
  encoder : α → ℕ → ℕ → ℚ
  decoder : (ℕ → ℕ → ℚ) → α
  beta : ℚ

/-- Source `Autoencoder.encode(x)`:
`h = (torch.sign(self.encoder(x)) + 1) / 2`, elementwise. -/
def Autoencoder.encode {α : Type} (ae : Autoencoder α) (x : α) : ℕ → ℕ → ℚ :=
  fun i j => (torchSign (ae.encoder x i j) + 1) / 2

/-- C9: every entry of `Autoencoder.encode(x)` lies in `{0, 1/2, 1}`, and it
equals `1/2` exactly when the corresponding encoder pre-activation is exactly
zero — the learned "binary" encoding emits the non-binary value `1/2` at zero
pre-activations. -/
theorem autoencoder_encode_range {α : Type} (ae : Autoencoder α) (x : α) (i j : ℕ) :
    (ae.encode x i j = 0 ∨ ae.encode x i j = 1 / 2 ∨ ae.encode x i j = 1) ∧
    (ae.encode x i j = 1 / 2 ↔ ae.encoder x i j = 0) := by
  have henc : ae.encode x i j = (torchSign (ae.encoder x i j) + 1) / 2 := rfl
  rcases lt_trichotomy (ae.encoder x i j) 0 with h | h | h
  · have hs : torchSign (ae.encoder x i j) = -1 := by
      rw [torchSign, if_neg (by linarith), if_pos h]
    rw [henc, hs]
    norm_num
    exact ne_of_lt h
  · have hs : torchSign (ae.encoder x i j) = 0 := by
      rw [torchSign, if_neg (by rw [h]; exact lt_irrefl 0), if_neg (by rw [h]; exact lt_irrefl 0)]
    rw [henc, hs]
    norm_num [h]
  · have hs : torchSign (ae.encoder x i j) = 1 := by
      rw [torchSign, if_pos h]
    rw [henc, hs]
    norm_num
    exact ne_of_gt h

/-- `uniform_sampling = [500 * k for k in range(4, 41)]`. -/
def uniform_sampling : List ℕ := (List.range 37).map (fun k => 500 * (k + 4))

/-- `interpolation_point_sampling = [9250, 9750, 10250, 10750]`. -/
def interpolation_point_sampling : List ℕ := [9250, 9750, 10250, 10750]

/-- `rps_list = sorted(uniform_sampling + interpolation_point_sampling)`. -/
def rps_list : List ℕ :=
  (uniform_sampling ++ interpolation_point_sampling).insertionSort (· ≤ ·)

/-- `max_rps = max(rps_list)`. -/
def max_rps : ℕ := rps_list.foldr max 0

/-- The notebook's single OPU projection: `opu = OPU(n_components=max_rps)`
applied once to the train and once to the test binary features
(`transform1d` is the opaque hardware call). -/
def double_descent_projection (transform1d : ℕ → NArr → NArr) (Xtr Xte : NArr) :
    NArr × NArr :=
  (transform1d max_rps Xtr, transform1d max_rps Xte)

/-- The column slice `X_rf[:, :p]` (NumPy clamps `p` to the column count). -/
def colPrefix (a : NArr) (p : ℕ) : NArr := ⟨a.rows, min p a.cols, a.entry⟩

/-- The feature matrices the `RidgeClassifier` loop fits and scores: for the
`i`-th value `rp` of `rps_list`, the column prefix `X_rf[:, :rp]` of the one
fixed projection. -/
def double_descent_features (X_rf : NArr) : List NArr :=
  rps_list.map (fun rp => colPrefix X_rf rp)

/-- `a` is a column-prefix of `b`: same rows, at most as many columns, and
identical entries on `a`'s in-bounds domain. -/
def IsColPrefix (a b : NArr) : Prop :=
  a.rows = b.rows ∧ a.cols ≤ b.cols ∧
    ∀ i < a.rows, ∀ j < a.cols, a.entry i j = b.entry i j

set_option maxRecDepth 8192 in
/-- C10: in the double-descent loop, `rps_list` is sorted ascending, the
single OPU projection uses `n_components = max_rps = max(rps_list) = 20000`
(an upper bound for, and a member of, `rps_list`), and the fitted feature
sets form a nested increasing chain: for `i ≤ j`, the `i`-th classifier's
feature matrix is a column-prefix of the `j`-th one. -/
theorem double_descent_prefix_chain (X_rf : NArr) (i j : ℕ)
    (hij : i ≤ j) (hj : j < rps_list.length) :
    List.Sorted (· ≤ ·) rps_list ∧
    max_rps = 20000 ∧
    (∀ r ∈ rps_list, r ≤ max_rps) ∧
    max_rps ∈ rps_list ∧
    IsColPrefix ((double_descent_features X_rf).getD i default)
      ((double_descent_features X_rf).getD j default) := by
  have hsorted : List.Sorted (· ≤ ·) rps_list := List.sorted_insertionSort _ _
  have hi : i < rps_list.length := lt_of_le_of_lt hij hj
  have hgd : ∀ k, k < rps_list.length →
      (double_descent_features X_rf).getD k default = colPrefix X_rf (rps_list.getD k 0) := by
    intro k hk
    rw [double_descent_features, List.getD_eq_getElem?_getD, List.getElem?_map,
      List.getElem?_eq_getElem hk, List.getD_eq_getElem?_getD, List.getElem?_eq_getElem hk]
    rfl
  have hmono : rps_list.getD i 0 ≤ rps_list.getD j 0 := by
    have hg1 : rps_list.getD i 0 = rps_list.get ⟨i, hi⟩ := by
      rw [List.getD_eq_getElem?_getD, List.getElem?_eq_getElem hi]; rfl
    have hg2 : rps_list.getD j 0 = rps_list.get ⟨j, hj⟩ := by
      rw [List.getD_eq_getElem?_getD, List.getElem?_eq_getElem hj]; rfl
    rcases eq_or_lt_of_le hij with rfl | hlt
    · exact le_refl _
    · rw [hg1, hg2]
      exact List.pairwise_iff_get.mp hsorted ⟨i, hi⟩ ⟨j, hj⟩ (Fin.mk_lt_mk.mpr hlt)
  refine ⟨hsorted, by decide, by decide, by decide, ?_⟩
  rw [hgd i hi, hgd j hj]
  exact ⟨rfl, min_le_min hmono (le_refl _), fun _ _ _ _ => rfl⟩

set_option maxRecDepth 8192 in
/-- C10 witness: the chain theorem at indices `0 ≤ 1` of `rps_list`, on the
array `[[2]]`. -/
theorem double_descent_prefix_chain_witness :
    ((0 : ℕ) ≤ 1 ∧ 1 < rps_list.length) ∧
    (List.Sorted (· ≤ ·) rps_list ∧
     max_rps = 20000 ∧
     (∀ r ∈ rps_list, r ≤ max_rps) ∧
     max_rps ∈ rps_list ∧
     IsColPrefix ((double_descent_features Xc1).getD 0 default)
       ((double_descent_features Xc1).getD 1 default)) :=
  ⟨⟨by decide, by decide⟩, double_descent_prefix_chain Xc1 0 1 (by decide) (by decide)⟩
